import Mathlib

/-!
Verification development for the `strands` word-puzzle solver.

The Rust program under study parses a rectangular letter board, enumerates
all dictionary words traceable along 8-directionally adjacent, non-repeating
cell paths, and then runs a backtracking cover search over the candidates'
cell bitmasks.  This file gives a shallow embedding of the relevant Rust
functions (`src/main.rs` and the solver helpers) and proves properties about
them.

Modelling conventions:
* Rust `usize` values are modelled as `Nat`; `count_ones` is modelled as the
  64-bit population count that `usize::count_ones` performs on this target.
* Rust strings are modelled as `List Char`.
* Code paths on which the Rust program panics (an arithmetic underflow, an
  out-of-bounds index, or an `expect` on `None`) are modelled by an `Option`
  result whose `none` value marks the panic.
* `inner_solve` mutates a `SmallVec` accumulator through push/pop; the
  embedding threads that accumulator explicitly, returning both the function
  result and the accumulator state at return time.
-/

namespace Strands

/-- The board: a flat list of letters with a width and a height
(`struct Board` in `main.rs`). -/
structure Board where
  letters : List Char
  w : Nat
  h : Nat
deriving DecidableEq, Repr

/-- `Board::parse_flat_board`: strips the spaces (Rust
`letters.replace(' ', "")`, where `Char.ofNat 32` is the space character)
and stores the remaining characters as the flat letter list.  No length
validation of any kind is performed by the source. -/
def parse_flat_board (letters : List Char) (width height : Nat) : Board :=
  { letters := letters.filter (fun ch => ch ≠ Char.ofNat 32)
    w := width
    h := height }

/-- `Board::get_neighbors`: the up-to-8 neighbours of flat index `i`,
pushed in the source order north, west, east, south, northwest, northeast,
southwest, southeast, each guarded exactly as in the Rust code
(`i.checked_sub(w).is_some()` becomes `w ≤ i`, and so on). -/
def Board.get_neighbors (b : Board) (i : Nat) : List Nat :=
  let size := b.w * b.h
  (if b.w ≤ i then [i - b.w] else []) ++
  (if i % b.w ≠ 0 then [i - 1] else []) ++
  (if (i + 1) % b.w ≠ 0 then [i + 1] else []) ++
  (if i + b.w < size then [i + b.w] else []) ++
  (if b.w + 1 ≤ i ∧ i % b.w ≠ 0 then [i - b.w - 1] else []) ++
  (if b.w ≤ i + 1 ∧ (i + 1) % b.w ≠ 0 then [i + 1 - b.w] else []) ++
  (if i + b.w - 1 < size ∧ i % b.w ≠ 0 then [i + b.w - 1] else []) ++
  (if i + b.w + 1 < size ∧ (i + 1) % b.w ≠ 0 then [i + b.w + 1] else [])

/-- `Board::make_word_from_inds`: the letters at `inds_so_far` followed by
the letter at `new_ind`.  The Rust indexing `letters[idx]` is total on the
runs we consider; out-of-range access is modelled by the default `getD`
letter. -/
def Board.make_word_from_inds (b : Board) (inds_so_far : List Nat)
    (new_ind : Nat) : List Char :=
  (inds_so_far.map (fun idx => b.letters.getD idx 'a')) ++
    [b.letters.getD new_ind 'a']

/-- Specification-side reading of a path: the board letters at the path's
indices, concatenated in order. -/
def word_on (b : Board) (path : List Nat) : List Char :=
  path.map (fun idx => b.letters.getD idx 'a')

/-- `Board::find_next`: the recursive candidate search.  The Rust function
recurses on a strictly growing path over a finite board; the embedding makes
that termination explicit with a fuel parameter (every claim proved below is
uniform in the fuel, and a large enough fuel reproduces any concrete run). -/
def Board.find_next (b : Board) :
    Nat → List (List Char) → List Nat → Nat → List (List Char × List Nat)
  | 0, _, _, _ => []
  | Nat.succ fuel, words, start_spots, current_board_position =>
    if words.isEmpty then []
    else
      ((b.get_neighbors current_board_position).map (fun nbr_idx =>
        if start_spots.contains nbr_idx then []
        else
          let word := b.make_word_from_inds start_spots nbr_idx
          let matched :=
            if words.contains word then [(word, start_spots ++ [nbr_idx])]
            else []
          let rem_words := words.filter (fun wd => word.isPrefixOf wd)
          matched ++
            (if rem_words.isEmpty then []
             else b.find_next fuel rem_words (start_spots ++ [nbr_idx])
               nbr_idx))).flatten

/-- `Board::find_valid_words_from_start`: filters the word list to those
starting with the letter at `start_point` (Rust
`w.starts_with(self.letters[start_point])` with a `char` pattern) and runs
`find_next` from the singleton path. -/
def Board.find_valid_words_from_start (b : Board) (fuel : Nat)
    (start_point : Nat) (words : List (List Char)) :
    List (List Char × List Nat) :=
  let start_spot := [start_point]
  let new_words :=
    words.filter (fun wd => wd.head? == some (b.letters.getD start_point 'a'))
  b.find_next fuel new_words start_spot start_point

/-- `bit_overlaps`: `existing & new_indices != 0`. -/
def bit_overlaps (existing new_indices : Nat) : Bool :=
  existing &&& new_indices != 0

/-- `indices_to_bits`: fold the indices into a bit set via `acc | (1 << idx)`. -/
def indices_to_bits (indices : List Nat) : Nat :=
  indices.foldl (fun acc idx => acc ||| (1 <<< idx)) 0

/-- `bits_to_indices`: the indices in `[0, w*h)` whose bit is set, ascending. -/
def bits_to_indices (bits board_w board_h : Nat) : List Nat :=
  (List.range (board_w * board_h)).filter (fun i => bits &&& (1 <<< i) != 0)

/-- The `direction` closure inside `lines_intersect`: the cross product
`(b - a) × (c - a)`. -/
def direction (a b c : Int × Int) : Int :=
  (b.1 - a.1) * (c.2 - a.2) - (b.2 - a.2) * (c.1 - a.1)

/-- `lines_intersect`: the strict orientation-based segment intersection
test.  Returns true only when all four direction values are nonzero and each
segment's endpoints lie on strictly opposite sides of the other segment. -/
def lines_intersect (a1 a2 b1 b2 : Int × Int) : Bool :=
  let d1 := direction a1 a2 b1
  let d2 := direction a1 a2 b2
  let d3 := direction b1 b2 a1
  let d4 := direction b1 b2 a2
  if d1 ≠ 0 ∧ d2 ≠ 0 ∧ d3 ≠ 0 ∧ d4 ≠ 0 then
    decide ((d1 < 0 ∧ 0 < d2 ∨ 0 < d1 ∧ d2 < 0) ∧
      (d3 < 0 ∧ 0 < d4 ∨ 0 < d3 ∧ d4 < 0))
  else false

/-- The `index_to_coords` closure inside `crosses_existing_lines`:
`(index / w, index % w)` as signed integers. -/
def index_to_coords (index board_w : Nat) : Int × Int :=
  (((index / board_w : Nat) : Int), ((index % board_w : Nat) : Int))

/-- `crosses_existing_lines`: every consecutive segment of
`new_block_indices` is tested against every consecutive segment of
`existing_indices`.  The Rust loop bound `new_block_indices.len() - 1` is a
`usize` subtraction: with an empty `new_block_indices` the function panics
(underflow in debug, out-of-bounds index in release), and likewise the inner
bound panics when the outer loop runs with empty `existing_indices`; `none`
models exactly those panics. -/
def crosses_existing_lines (existing_indices new_block_indices : List Nat)
    (board_w : Nat) : Option Bool :=
  if new_block_indices.length = 0 ∨
      (2 ≤ new_block_indices.length ∧ existing_indices.length = 0) then
    none
  else
    some ((List.range (new_block_indices.length - 1)).any (fun i =>
      (List.range (existing_indices.length - 1)).any (fun j =>
        lines_intersect
          (index_to_coords (new_block_indices.getD i 0) board_w)
          (index_to_coords (new_block_indices.getD (i + 1) 0) board_w)
          (index_to_coords (existing_indices.getD j 0) board_w)
          (index_to_coords (existing_indices.getD (j + 1) 0) board_w))))

/-- `no_diagonal_overlap` (the version in `main.rs`, the one `inner_solve`
calls): converts the block mask and the merged board mask to ascending index
lists and negates the crossing test; an empty board short-circuits to true.
`none` propagates a panic of `crosses_existing_lines`. -/
def no_diagonal_overlap (block board board_w board_h : Nat) : Option Bool :=
  let block_indices := bits_to_indices block board_w board_h
  let board_indices := bits_to_indices board board_w board_h
  if board_indices.isEmpty then some true
  else
    (crosses_existing_lines board_indices block_indices board_w).map
      (fun bv => !bv)

/-- `usize::count_ones` on this 64-bit target: the number of set bits among
positions `0..64`. -/
def count_ones (n : Nat) : Nat :=
  (List.range 64).countP (fun i => n.testBit i)

/-- The body of `inner_solve`'s `for (idx, block) in blocks.iter()` loop.
The first component of a `some` result is the Rust return value
(`Some selection` or `None`), the second is the state of the
`selected_blocks` accumulator at that return; an outer `none` models a
panic propagated from the crossing check.  The recursive Rust call
`inner_solve(new_board, &blocks[idx+1..], ...)` happens only under
`selected_blocks.len() < max_len`, so its entry length check is statically
false and it proceeds directly into this loop on the remaining suffix. -/
def innerLoop (board : Nat) (blocks : List Nat) (selected : List Nat)
    (max_len board_w board_h : Nat) :
    Option (Option (List Nat) × List Nat) :=
  match blocks with
  | [] => some (none, selected)
  | block :: rest =>
    if bit_overlaps block board then
      innerLoop board rest selected max_len board_w board_h
    else
      match no_diagonal_overlap block board board_w board_h with
      | none => none
      | some false => innerLoop board rest selected max_len board_w board_h
      | some true =>
        let new_board := block ||| board
        let selected1 := selected ++ [block]
        if count_ones new_board = board_h * board_w then
          some (some selected1, selected1)
        else if max_len ≤ selected1.length then
          innerLoop board rest selected1.dropLast max_len board_w board_h
        else
          match innerLoop new_board rest selected1 max_len board_w board_h with
          | none => none
          | some (some res, sel1) => some (some res, sel1)
          | some (none, sel1) =>
            innerLoop board rest sel1.dropLast max_len board_w board_h

/-- `inner_solve`: the length guard at entry followed by the candidate
loop. -/
def innerSolve (board : Nat) (blocks : List Nat) (selected : List Nat)
    (max_len board_w board_h : Nat) :
    Option (Option (List Nat) × List Nat) :=
  if max_len ≤ selected.length then some (none, selected)
  else innerLoop board blocks selected max_len board_w board_h

/-- The `condensed_words` list built at the top of `solve`: every
candidate's index path collapsed to a bit mask, in flattened order. -/
def condensed_words (words_that_fit : List (List (List Char × List Nat))) :
    List Nat :=
  (words_that_fit.map (fun start_point =>
    start_point.map (fun c => indices_to_bits c.2))).flatten

/-- The `flattened_words_that_fit` list built in `solve`: just the words,
in the same flattened order. -/
def flattened_words_that_fit
    (words_that_fit : List (List (List Char × List Nat))) :
    List (List Char) :=
  (words_that_fit.map (fun start_point =>
    start_point.map (fun c => c.1))).flatten

/-- `solve`: condenses the candidates, runs `inner_solve` from the empty
board and the empty accumulator, and maps the selected masks back to words
by position lookup.  The Rust
`inner_solve(...).expect("Could not find a solution")` panics when the
search returns `None`; that panic, like a propagated crossing-check panic,
is modelled by a `none` result. -/
def solve (words_that_fit : List (List (List Char × List Nat)))
    (max_len board_w board_h : Nat) : Option (List (List Char)) :=
  let condensed := condensed_words words_that_fit
  let flattened := flattened_words_that_fit words_that_fit
  match innerSolve 0 condensed [] max_len board_w board_h with
  | none => none
  | some (none, _) => none
  | some (some inds, _) =>
    some ((inds.filterMap (fun ind =>
      condensed.findIdx? (fun x => x == ind))).map
        (fun idx => flattened.getD idx []))

/-- Specification-side strict straddling of two segments, in the words of
the spec: all four cross-product direction values are nonzero and each
segment's endpoints lie on strictly opposite orientation sides of the other
segment. -/
def Straddle (a1 a2 b1 b2 : Int × Int) : Prop :=
  direction a1 a2 b1 ≠ 0 ∧ direction a1 a2 b2 ≠ 0 ∧
  direction b1 b2 a1 ≠ 0 ∧ direction b1 b2 a2 ≠ 0 ∧
  (direction a1 a2 b1 < 0 ∧ 0 < direction a1 a2 b2 ∨
    0 < direction a1 a2 b1 ∧ direction a1 a2 b2 < 0) ∧
  (direction b1 b2 a1 < 0 ∧ 0 < direction b1 b2 a2 ∨
    0 < direction b1 b2 a1 ∧ direction b1 b2 a2 < 0)

/-- Specification-side crossing of two index sequences: some consecutive
segment of the new sequence strictly straddles some consecutive segment of
the existing sequence. -/
def SegmentsCross (existing_indices new_block_indices : List Nat)
    (board_w : Nat) : Prop :=
  ∃ i j, i + 1 < new_block_indices.length ∧
    j + 1 < existing_indices.length ∧
    Straddle
      (index_to_coords (new_block_indices.getD i 0) board_w)
      (index_to_coords (new_block_indices.getD (i + 1) 0) board_w)
      (index_to_coords (existing_indices.getD j 0) board_w)
      (index_to_coords (existing_indices.getD (j + 1) 0) board_w)

/-- The placement discipline `inner_solve` enforces along a selection, in
order: each block is disjoint from the running board mask and passes the
diagonal-crossing check against it, and the block is then merged into the
running mask. -/
def placedOK (board_w board_h : Nat) : Nat → List Nat → Prop
  | _, [] => True
  | board, block :: rest =>
    bit_overlaps block board = false ∧
    no_diagonal_overlap block board board_w board_h = some true ∧
    placedOK board_w board_h (block ||| board) rest

/-- The union of a selection's masks, merged onto a starting board exactly
as `inner_solve` does (`block | board`). -/
def unionFrom (board : Nat) (blocks : List Nat) : Nat :=
  blocks.foldl (fun acc block => block ||| acc) board

/-- Specification-side adjacency on a `w × h` grid: `j` is a geometrically
valid orthogonal or diagonal neighbour of `i` exactly when its row and
column each differ from those of `i` by at most one, the pair differs
somewhere, and `j` is on the board; no wraparound across rows or columns is
possible because rows and columns are compared directly. -/
def NeighborSpec (w h i j : Nat) : Prop :=
  ∃ q2 r2, q2 < h ∧ r2 < w ∧ j = w * q2 + r2 ∧
    ¬(q2 = i / w ∧ r2 = i % w) ∧
    (q2 = i / w ∨ q2 + 1 = i / w ∨ q2 = i / w + 1) ∧
    (r2 = i % w ∨ r2 + 1 = i % w ∨ r2 = i % w + 1)

/-! ## Geometry lemmas -/

/-- The strict orientation test computes exactly the straddling predicate of
the specification. -/
theorem lines_intersect_eq_true_iff (a1 a2 b1 b2 : Int × Int) :
    lines_intersect a1 a2 b1 b2 = true ↔ Straddle a1 a2 b1 b2 := by
  simp only [lines_intersect, Straddle]
  split_ifs with hc
  · rw [decide_eq_true_eq]
    tauto
  · simp only [Bool.false_eq_true, false_iff]
    tauto

/-- The orientation test is symmetric in its two segments. -/
theorem lines_intersect_symm (a1 a2 b1 b2 : Int × Int) :
    lines_intersect a1 a2 b1 b2 = lines_intersect b1 b2 a1 a2 := by
  rw [Bool.eq_iff_iff, lines_intersect_eq_true_iff, lines_intersect_eq_true_iff]
  unfold Straddle
  tauto

/-- The crossing test returns `some true` exactly when some consecutive
segment of the new index sequence strictly straddles some consecutive
segment of the existing one. -/
theorem crosses_eq_some_true_iff (ex nw : List Nat) (w : Nat) :
    crosses_existing_lines ex nw w = some true ↔ SegmentsCross ex nw w := by
  unfold crosses_existing_lines SegmentsCross
  split_ifs with hg
  · constructor
    · intro hcon
      exact absurd hcon (by simp)
    · rintro ⟨i, j, hi, hj, -⟩
      rcases hg with h0 | ⟨h2, h0⟩ <;> omega
  · rw [Option.some_inj]
    simp only [List.any_eq_true, List.mem_range]
    constructor
    · rintro ⟨i, hi, j, hj, hint⟩
      exact ⟨i, j, by omega, by omega,
        (lines_intersect_eq_true_iff _ _ _ _).mp hint⟩
    · rintro ⟨i, j, hi, hj, hstr⟩
      push_neg at hg
      exact ⟨i, by omega, j, by omega,
        (lines_intersect_eq_true_iff _ _ _ _).mpr hstr⟩

/-- The diagonal-overlap gate fails (returns `some false`) exactly when the
board mask is nonempty and the ascending index list of the block mask
strictly crosses the ascending index list of the board mask. -/
theorem ndo_eq_some_false_iff (block board w h : Nat) :
    no_diagonal_overlap block board w h = some false ↔
      (bits_to_indices board w h ≠ [] ∧
        SegmentsCross (bits_to_indices board w h)
          (bits_to_indices block w h) w) := by
  unfold no_diagonal_overlap
  simp only []
  split_ifs with hemp
  · rw [List.isEmpty_iff] at hemp
    simp [hemp]
  · rw [List.isEmpty_iff] at hemp
    cases hcr : crosses_existing_lines (bits_to_indices board w h)
        (bits_to_indices block w h) w with
    | none =>
      simp only [Option.map_none', hemp, ne_eq, not_false_iff, true_and]
      constructor
      · intro hcon
        exact absurd hcon (by simp)
      · intro hsc
        have := (crosses_eq_some_true_iff _ _ _).mpr hsc
        rw [hcr] at this
        exact absurd this (by simp)
    | some bv =>
      have hiff := crosses_eq_some_true_iff (bits_to_indices board w h)
        (bits_to_indices block w h) w
      rw [hcr] at hiff
      simp only [Option.map_some', Option.some_inj, hemp, ne_eq,
        not_false_iff, true_and]
      cases bv <;> simp_all

/-! ## Solver unfolding lemmas -/

theorem innerLoop_nil (board : Nat) (sel : List Nat) (m w h : Nat) :
    innerLoop board [] sel m w h = some (none, sel) := rfl

theorem innerLoop_cons (board block : Nat) (rest sel : List Nat)
    (m w h : Nat) :
    innerLoop board (block :: rest) sel m w h =
      if bit_overlaps block board then
        innerLoop board rest sel m w h
      else
        match no_diagonal_overlap block board w h with
        | none => none
        | some false => innerLoop board rest sel m w h
        | some true =>
          if count_ones (block ||| board) = h * w then
            some (some (sel ++ [block]), sel ++ [block])
          else if m ≤ (sel ++ [block]).length then
            innerLoop board rest (sel ++ [block]).dropLast m w h
          else
            match innerLoop (block ||| board) rest (sel ++ [block]) m w h with
            | none => none
            | some (some res, sel1) => some (some res, sel1)
            | some (none, sel1) =>
              innerLoop board rest sel1.dropLast m w h := rfl

/-- Backtracking restores the accumulator: whenever the candidate loop
reports `None`, the accumulator it hands back is the accumulator it was
given. -/
theorem innerLoop_none_eq (blocks : List Nat) :
    ∀ (board : Nat) (sel : List Nat) (m w h : Nat) (sel' : List Nat),
      innerLoop board blocks sel m w h = some (none, sel') → sel' = sel := by
  induction blocks with
  | nil =>
    intro board sel m w h sel' hrun
    rw [innerLoop_nil] at hrun
    simpa using hrun.symm
  | cons block rest ih =>
    intro board sel m w h sel' hrun
    rw [innerLoop_cons] at hrun
    split at hrun
    · exact ih board sel m w h sel' hrun
    · split at hrun
      · exact absurd hrun (by simp)
      · exact ih board sel m w h sel' hrun
      · split at hrun
        · exact absurd hrun (by simp)
        · split at hrun
          · have := ih board (sel ++ [block]).dropLast m w h sel' hrun
            simpa using this
          · split at hrun
            · exact absurd hrun (by simp)
            · exact absurd hrun (by simp)
            · rename_i sel1 heq
              have h1 : sel1 = sel ++ [block] :=
                ih (block ||| board) (sel ++ [block]) m w h sel1 heq
              have h2 := ih board sel1.dropLast m w h sel' hrun
              rw [h1] at h2
              simpa using h2

/-- `inner_solve` version of accumulator restoration. -/
theorem innerSolve_none_eq (board : Nat) (blocks sel : List Nat)
    (m w h : Nat) (sel' : List Nat)
    (hrun : innerSolve board blocks sel m w h = some (none, sel')) :
    sel' = sel := by
  unfold innerSolve at hrun
  split at hrun
  · simpa using hrun.symm
  · exact innerLoop_none_eq blocks board sel m w h sel' hrun

/-- Soundness of a successful loop run: the returned selection extends the
entry accumulator by a nonempty suffix of blocks drawn in order from the
remaining candidate list, each placed block passes the overlap and
diagonal-crossing gates against the running mask, the final merged mask has
exactly `h * w` set bits, and the selection respects the length bound. -/
theorem innerLoop_some_sound (blocks : List Nat) :
    ∀ (board : Nat) (sel : List Nat) (m w h : Nat) (res sel' : List Nat),
      innerLoop board blocks sel m w h = some (some res, sel') →
      sel.length < m →
      ∃ ext, ext ≠ [] ∧ res = sel ++ ext ∧ sel' = res ∧
        ext.Sublist blocks ∧ placedOK w h board ext ∧
        count_ones (unionFrom board ext) = h * w ∧ res.length ≤ m := by
  induction blocks with
  | nil =>
    intro board sel m w h res sel' hrun hlen
    rw [innerLoop_nil] at hrun
    exact absurd hrun (by simp)
  | cons block rest ih =>
    intro board sel m w h res sel' hrun hlen
    rw [innerLoop_cons] at hrun
    split at hrun
    · obtain ⟨ext, hne, hre, hse, hsub, hok, hcnt, hle⟩ :=
        ih board sel m w h res sel' hrun hlen
      exact ⟨ext, hne, hre, hse, hsub.cons block, hok, hcnt, hle⟩
    · rename_i hov
      split at hrun
      · exact absurd hrun (by simp)
      · obtain ⟨ext, hne, hre, hse, hsub, hok, hcnt, hle⟩ :=
          ih board sel m w h res sel' hrun hlen
        exact ⟨ext, hne, hre, hse, hsub.cons block, hok, hcnt, hle⟩
      · rename_i hndo
        have hov' : bit_overlaps block board = false := by
          simpa using hov
        split at hrun
        · rename_i hcount
          have hres : res = sel ++ [block] ∧ sel' = sel ++ [block] := by
            constructor <;> (injection hrun with h1; injection h1 with h2 h3) <;>
              simp_all
          refine ⟨[block], by simp, hres.1, by rw [hres.1, hres.2],
            (List.nil_sublist rest).cons₂ block, ⟨hov', hndo, trivial⟩, ?_, ?_⟩
          · simpa [unionFrom] using hcount
          · rw [hres.1]
            simp only [List.length_append, List.length_singleton]
            omega
        · split at hrun
          · rw [List.dropLast_concat] at hrun
            obtain ⟨ext, hne, hre, hse, hsub, hok, hcnt, hle⟩ :=
              ih board sel m w h res sel' hrun hlen
            exact ⟨ext, hne, hre, hse, hsub.cons block, hok, hcnt, hle⟩
          · rename_i hcount hlen1
            split at hrun
            · exact absurd hrun (by simp)
            · rename_i res0 sel1 heq
              have hlen1' : (sel ++ [block]).length < m := by
                simp only [List.length_append, List.length_singleton] at hlen1 ⊢
                omega
              obtain ⟨ext1, hne1, hre1, hse1, hsub1, hok1, hcnt1, hle1⟩ :=
                ih (block ||| board) (sel ++ [block]) m w h res0 sel1 heq hlen1'
              have hres : res = res0 ∧ sel' = sel1 := by
                constructor <;>
                  (injection hrun with h1; injection h1 with h2 h3) <;> simp_all
              refine ⟨block :: ext1, by simp, ?_, ?_, hsub1.cons₂ block,
                ⟨hov', hndo, hok1⟩, ?_, ?_⟩
              · rw [hres.1, hre1]
                simp
              · rw [hres.1, hres.2, hse1]
              · simpa [unionFrom] using hcnt1
              · rw [hres.1]
                exact hle1
            · rename_i sel1 heq
              have h1 : sel1 = sel ++ [block] :=
                innerLoop_none_eq rest (block ||| board) (sel ++ [block])
                  m w h sel1 heq
              rw [h1, List.dropLast_concat] at hrun
              obtain ⟨ext, hne, hre, hse, hsub, hok, hcnt, hle⟩ :=
                ih board sel m w h res sel' hrun hlen
              exact ⟨ext, hne, hre, hse, hsub.cons block, hok, hcnt, hle⟩

/-- Soundness of a successful `inner_solve` run. -/
theorem innerSolve_some_sound (board : Nat) (blocks sel : List Nat)
    (m w h : Nat) (res sel' : List Nat)
    (hrun : innerSolve board blocks sel m w h = some (some res, sel')) :
    ∃ ext, ext ≠ [] ∧ res = sel ++ ext ∧ sel' = res ∧
      ext.Sublist blocks ∧ placedOK w h board ext ∧
      count_ones (unionFrom board ext) = h * w ∧ res.length ≤ m := by
  unfold innerSolve at hrun
  split at hrun
  · exact absurd hrun (by simp)
  · rename_i hlen
    exact innerLoop_some_sound blocks board sel m w h res sel' hrun (by omega)

/-! ## Panic-freedom and bitmask lemmas -/

/-- A mask that is nonzero and within the board has a set bit below
`w * h`, so its ascending index list is nonempty. -/
theorem bits_to_indices_ne_nil (bk w h : Nat) (h0 : 0 < bk)
    (hlt : bk < 2 ^ (w * h)) : bits_to_indices bk w h ≠ [] := by
  intro hnil
  have hlow : ∀ i < w * h, bk.testBit i = false := by
    intro i hi
    have hmem : i ∈ List.range (w * h) := List.mem_range.mpr hi
    have := List.filter_eq_nil_iff.mp hnil i hmem
    simp only [bne_iff_ne, ne_eq, Decidable.not_not] at this
    have hsh : (1 : Nat) <<< i = 2 ^ i := by
      rw [Nat.shiftLeft_eq, one_mul]
    rw [hsh, Nat.and_two_pow] at this
    rcases hbit : bk.testBit i with _ | _
    · rfl
    · rw [hbit] at this
      simp at this
  have hzero : bk = 0 := by
    apply Nat.eq_of_testBit_eq
    intro i
    rw [Nat.zero_testBit]
    by_cases hi : i < w * h
    · exact hlow i hi
    · exact Nat.testBit_lt_two_pow
        (lt_of_lt_of_le hlt (Nat.pow_le_pow_right (by omega) (by omega)))
  omega

/-- The diagonal-overlap gate cannot panic on a block whose index list is
nonempty. -/
theorem ndo_ne_none (block board w h : Nat)
    (hb : bits_to_indices block w h ≠ []) :
    no_diagonal_overlap block board w h ≠ none := by
  unfold no_diagonal_overlap
  simp only []
  split_ifs with hemp
  · simp
  · rw [List.isEmpty_iff] at hemp
    unfold crosses_existing_lines
    have hbl : (bits_to_indices block w h).length ≠ 0 := by
      simpa [List.length_eq_zero] using hb
    have hbo : (bits_to_indices board w h).length ≠ 0 := by
      simpa [List.length_eq_zero] using hemp
    rw [if_neg (by omega)]
    simp

/-- The candidate loop cannot panic when every block's index list is
nonempty. -/
theorem innerLoop_ne_none (blocks : List Nat) :
    ∀ (board : Nat) (sel : List Nat) (m w h : Nat),
      (∀ bk ∈ blocks, bits_to_indices bk w h ≠ []) →
      innerLoop board blocks sel m w h ≠ none := by
  induction blocks with
  | nil =>
    intro board sel m w h _ hcon
    rw [innerLoop_nil] at hcon
    exact absurd hcon (by simp)
  | cons block rest ih =>
    intro board sel m w h hblocks hcon
    have hrest : ∀ bk ∈ rest, bits_to_indices bk w h ≠ [] :=
      fun bk hk => hblocks bk (List.mem_cons_of_mem block hk)
    rw [innerLoop_cons] at hcon
    split at hcon
    · exact ih board sel m w h hrest hcon
    · split at hcon
      · rename_i hndo
        exact ndo_ne_none block board w h
          (hblocks block (List.mem_cons_self block rest)) hndo
      · exact ih board sel m w h hrest hcon
      · split at hcon
        · exact absurd hcon (by simp)
        · split at hcon
          · exact ih board (sel ++ [block]).dropLast m w h hrest hcon
          · split at hcon
            · rename_i heq
              exact ih (block ||| board) (sel ++ [block]) m w h hrest heq
            · exact absurd hcon (by simp)
            · rename_i sel1 heq
              exact ih board sel1.dropLast m w h hrest hcon

/-- `inner_solve` cannot panic when every block's index list is nonempty. -/
theorem innerSolve_ne_none (board : Nat) (blocks sel : List Nat)
    (m w h : Nat) (hblocks : ∀ bk ∈ blocks, bits_to_indices bk w h ≠ []) :
    innerSolve board blocks sel m w h ≠ none := by
  unfold innerSolve
  split
  · simp
  · exact innerLoop_ne_none blocks board sel m w h hblocks

/-- Counting set bits over a range that already contains every set bit can
be restricted to the prefix. -/
theorem countP_range_shrink (p : Nat → Bool) (k : Nat) :
    ∀ m, k ≤ m → (∀ i, k ≤ i → p i = false) →
      (List.range m).countP p = (List.range k).countP p := by
  intro m
  induction m with
  | zero =>
    intro hkm _
    have : k = 0 := by omega
    simp [this]
  | succ m ihm =>
    intro hkm hhigh
    by_cases hk : k = m + 1
    · simp [hk]
    · have hkm' : k ≤ m := by omega
      rw [List.range_succ, List.countP_append]
      have hpm : p m = false := hhigh m (by omega)
      simp [List.countP_cons, hpm, ihm hkm' hhigh]

/-- A value below `2 ^ k` (with `k ≤ 64`) whose 64-bit population count is
`k` must be `2 ^ k - 1`. -/
theorem count_ones_full (n k : Nat) (hk : k ≤ 64) (hlt : n < 2 ^ k)
    (hc : count_ones n = k) : n = 2 ^ k - 1 := by
  have hhigh : ∀ i, k ≤ i → n.testBit i = false := by
    intro i hi
    exact Nat.testBit_lt_two_pow
      (lt_of_lt_of_le hlt (Nat.pow_le_pow_right (by omega) hi))
  have hcnt : (List.range k).countP (fun i => n.testBit i) = k := by
    rw [← countP_range_shrink (fun i => n.testBit i) k 64 hk hhigh]
    exact hc
  have hall : ∀ i ∈ List.range k, n.testBit i = true := by
    apply List.countP_eq_length.mp
    rw [hcnt, List.length_range]
  apply Nat.eq_of_testBit_eq
  intro i
  rw [Nat.testBit_two_pow_sub_one]
  by_cases hi : i < k
  · rw [hall i (List.mem_range.mpr hi)]
    simp [hi]
  · rw [hhigh i (by omega)]
    simp [hi]

/-- If `x` is disjoint from a union then it is disjoint from the right
part. -/
theorem and_eq_zero_right {x a c : Nat} (hx : x &&& (a ||| c) = 0) :
    x &&& c = 0 := by
  apply Nat.eq_of_testBit_eq
  intro i
  have := congrArg (fun t => t.testBit i) hx
  simp only [Nat.testBit_and, Nat.testBit_or, Nat.zero_testBit] at this ⊢
  rcases hxb : x.testBit i <;> rcases hcb : c.testBit i <;> simp_all

/-- If `x` is disjoint from a union then it is disjoint from the left
part. -/
theorem and_eq_zero_left {x a c : Nat} (hx : x &&& (a ||| c) = 0) :
    x &&& a = 0 := by
  apply Nat.eq_of_testBit_eq
  intro i
  have := congrArg (fun t => t.testBit i) hx
  simp only [Nat.testBit_and, Nat.testBit_or, Nat.zero_testBit] at this ⊢
  rcases hxb : x.testBit i <;> rcases hab : a.testBit i <;> simp_all

/-- Every block placed by the solver's discipline is disjoint from the
board mask it started from. -/
theorem placedOK_and_eq_zero (l : List Nat) :
    ∀ (board w h : Nat), placedOK w h board l →
      ∀ x ∈ l, x &&& board = 0 := by
  induction l with
  | nil =>
    intro board w h _ x hx
    exact absurd hx (by simp)
  | cons b rest ih =>
    intro board w h hok x hx
    obtain ⟨hov, -, hrest⟩ := hok
    rcases List.mem_cons.mp hx with hxb | hxr
    · subst hxb
      simpa [bit_overlaps] using hov
    · exact and_eq_zero_right (ih (b ||| board) w h hrest x hxr)

/-- The solver's placement discipline yields pairwise disjoint masks. -/
theorem placedOK_pairwise (l : List Nat) :
    ∀ (board w h : Nat), placedOK w h board l →
      l.Pairwise (fun a b => a &&& b = 0) := by
  induction l with
  | nil =>
    intro board w h _
    exact List.Pairwise.nil
  | cons b rest ih =>
    intro board w h hok
    obtain ⟨hov, hndo, hrest⟩ := hok
    refine List.Pairwise.cons ?_ (ih (b ||| board) w h hrest)
    intro y hy
    have : y &&& b = 0 :=
      and_eq_zero_left (placedOK_and_eq_zero rest (b ||| board) w h hrest y hy)
    rw [Nat.and_comm]
    exact this

/-- Merging masks below `2 ^ K` stays below `2 ^ K`. -/
theorem unionFrom_lt (l : List Nat) :
    ∀ (board K : Nat), board < 2 ^ K → (∀ x ∈ l, x < 2 ^ K) →
      unionFrom board l < 2 ^ K := by
  induction l with
  | nil =>
    intro board K hb _
    simpa [unionFrom] using hb
  | cons b rest ih =>
    intro board K hb hl
    have hb' : b ||| board < 2 ^ K :=
      Nat.or_lt_two_pow (hl b (by simp)) hb
    have := ih (b ||| board) K hb' (fun x hx => hl x (by simp [hx]))
    simpa [unionFrom] using this

/-! ## Grid adjacency lemmas -/

/-- Membership characterisation of `get_neighbors` at `i = w * q + r`:
exactly the on-board cells whose row and column each differ by at most one
from `(q, r)`, other than the cell itself. -/
theorem mem_get_neighbors_iff (L : List Char) (w h q r j : Nat)
    (hw : 1 ≤ w) (hq : q < h) (hr : r < w) :
    j ∈ (Board.mk L w h).get_neighbors (w * q + r) ↔
      NeighborSpec w h (w * q + r) j := by
  have hdiv : (w * q + r) / w = q := by
    rw [Nat.mul_add_div (by omega)]
    simp [Nat.div_eq_of_lt hr]
  have hmod : (w * q + r) % w = r := by
    rw [Nat.mul_add_mod]
    exact Nat.mod_eq_of_lt hr
  have hmodx : ∀ x : Nat, x < w → (w * q + x) % w = x := by
    intro x hx
    rw [Nat.mul_add_mod]
    exact Nat.mod_eq_of_lt hx
  have e1 : w * (q + 1) = w * q + w := by ring
  have e2 : w * (q + 2) = w * q + w + w := by ring
  unfold NeighborSpec
  rw [hdiv, hmod]
  unfold Board.get_neighbors
  simp only [List.mem_append, List.mem_ite_nil_right, List.mem_singleton]
  constructor
  · intro hj
    simp only [or_assoc] at hj
    rcases hj with ⟨hc, rfl⟩ | ⟨hc, rfl⟩ | ⟨hc, rfl⟩ | ⟨hc, rfl⟩ |
      ⟨⟨hc1, hc2⟩, rfl⟩ | ⟨⟨hc1, hc2⟩, rfl⟩ | ⟨⟨hc1, hc2⟩, rfl⟩ |
      ⟨⟨hc1, hc2⟩, rfl⟩
    · -- north
      have hq1 : 1 ≤ q := by
        by_contra hq0
        have hq0' : q = 0 := by omega
        rw [hq0', Nat.mul_zero] at hc
        omega
      obtain ⟨q', rfl⟩ : ∃ q', q = q' + 1 := ⟨q - 1, by omega⟩
      have e : w * (q' + 1) = w * q' + w := by ring
      exact ⟨q', r, by omega, hr, by omega, by omega, by omega, by omega⟩
    · -- west
      rw [hmod] at hc
      obtain ⟨r', rfl⟩ : ∃ r', r = r' + 1 := ⟨r - 1, by omega⟩
      exact ⟨q, r', hq, by omega, by omega, by omega, by omega, by omega⟩
    · -- east
      have hlt : r + 1 < w := by
        by_contra hge
        have hrw : r + 1 = w := by omega
        have e : w * q + r + 1 = w * (q + 1) := by rw [← hrw]; ring
        rw [e, Nat.mul_mod_right] at hc
        exact hc rfl
      exact ⟨q, r + 1, hq, hlt, by omega, by omega, by omega, by omega⟩
    · -- south
      have hq1 : q + 1 < h := by
        by_contra hge
        have := Nat.mul_le_mul_left w (show h ≤ q + 1 by omega)
        omega
      exact ⟨q + 1, r, hq1, hr, by omega, by omega, by omega, by omega⟩
    · -- northwest
      rw [hmod] at hc2
      have hq1 : 1 ≤ q := by
        by_contra hq0
        have hq0' : q = 0 := by omega
        rw [hq0', Nat.mul_zero] at hc1
        omega
      obtain ⟨q', rfl⟩ : ∃ q', q = q' + 1 := ⟨q - 1, by omega⟩
      obtain ⟨r', rfl⟩ : ∃ r', r = r' + 1 := ⟨r - 1, by omega⟩
      have e : w * (q' + 1) = w * q' + w := by ring
      exact ⟨q', r', by omega, by omega, by omega, by omega, by omega,
        by omega⟩
    · -- northeast
      have hlt : r + 1 < w := by
        by_contra hge
        have hrw : r + 1 = w := by omega
        have e : w * q + r + 1 = w * (q + 1) := by rw [← hrw]; ring
        rw [e, Nat.mul_mod_right] at hc2
        exact hc2 rfl
      have hq1 : 1 ≤ q := by
        by_contra hq0
        have hq0' : q = 0 := by omega
        rw [hq0', Nat.mul_zero] at hc1
        omega
      obtain ⟨q', rfl⟩ : ∃ q', q = q' + 1 := ⟨q - 1, by omega⟩
      have e : w * (q' + 1) = w * q' + w := by ring
      exact ⟨q', r + 1, by omega, hlt, by omega, by omega, by omega,
        by omega⟩
    · -- southwest
      rw [hmod] at hc2
      obtain ⟨r', rfl⟩ : ∃ r', r = r' + 1 := ⟨r - 1, by omega⟩
      have hq1 : q + 1 < h := by
        by_contra hge
        have := Nat.mul_le_mul_left w (show h ≤ q + 1 by omega)
        omega
      exact ⟨q + 1, r', hq1, by omega, by omega, by omega, by omega,
        by omega⟩
    · -- southeast
      have hlt : r + 1 < w := by
        by_contra hge
        have hrw : r + 1 = w := by omega
        have e : w * q + r + 1 = w * (q + 1) := by rw [← hrw]; ring
        rw [e, Nat.mul_mod_right] at hc2
        exact hc2 rfl
      have hq1 : q + 1 < h := by
        by_contra hge
        have := Nat.mul_le_mul_left w (show h ≤ q + 1 by omega)
        omega
      exact ⟨q + 1, r + 1, hq1, hlt, by omega, by omega, by omega,
        by omega⟩
  · rintro ⟨q2, r2, hq2, hr2, rfl, hne, hdq, hdr⟩
    simp only [or_assoc]
    rcases hdq with h1 | h1 | h1 <;> rcases hdr with h2 | h2 | h2
    · exact absurd ⟨h1, h2⟩ hne
    · -- west
      subst h1; subst h2
      refine Or.inr (Or.inl ⟨?_, ?_⟩)
      · rw [hmod]; omega
      · omega
    · -- east
      subst h1; subst h2
      refine Or.inr (Or.inr (Or.inl ⟨?_, ?_⟩))
      · have hre : w * q2 + r + 1 = w * q2 + (r + 1) := by omega
        rw [hre, hmodx (r + 1) (by omega)]
        omega
      · omega
    · -- north
      subst h2; subst h1
      have e : w * (q2 + 1) = w * q2 + w := by ring
      exact Or.inl ⟨by omega, by omega⟩
    · -- northwest
      subst h1; subst h2
      have e : w * (q2 + 1) = w * q2 + w := by ring
      refine Or.inr (Or.inr (Or.inr (Or.inr (Or.inl ⟨⟨?_, ?_⟩, ?_⟩))))
      · omega
      · rw [hmod]; omega
      · omega
    · -- northeast
      subst h1; subst h2
      have e : w * (q2 + 1) = w * q2 + w := by ring
      refine Or.inr (Or.inr (Or.inr (Or.inr (Or.inr (Or.inl
        ⟨⟨?_, ?_⟩, ?_⟩)))))
      · omega
      · have hre : w * (q2 + 1) + r + 1 = w * (q2 + 1) + (r + 1) := by omega
        rw [hre, hmodx (r + 1) (by omega)]
        omega
      · omega
    · -- south
      subst h2; subst h1
      have hmul : w * (q + 2) ≤ w * h := Nat.mul_le_mul_left w (by omega)
      refine Or.inr (Or.inr (Or.inr (Or.inl ⟨?_, ?_⟩)))
      · omega
      · omega
    · -- southwest
      subst h1; subst h2
      have hmul : w * (q + 2) ≤ w * h := Nat.mul_le_mul_left w (by omega)
      refine Or.inr (Or.inr (Or.inr (Or.inr (Or.inr (Or.inr (Or.inl
        ⟨⟨?_, ?_⟩, ?_⟩))))))
      · omega
      · rw [hmod]; omega
      · omega
    · -- southeast
      subst h1; subst h2
      have hmul : w * (q + 2) ≤ w * h := Nat.mul_le_mul_left w (by omega)
      refine Or.inr (Or.inr (Or.inr (Or.inr (Or.inr (Or.inr (Or.inr
        ⟨⟨?_, ?_⟩, ?_⟩))))))
      · omega
      · have hre : w * q + r + 1 = w * q + (r + 1) := by omega
        rw [hre, hmodx (r + 1) (by omega)]
        omega
      · omega

/-- `get_neighbors` at `i = w * q + r` with its guards rewritten to their
row/column form. -/
theorem get_neighbors_translated (L : List Char) (w h q r : Nat)
    (hw : 1 ≤ w) (hr : r < w) :
    (Board.mk L w h).get_neighbors (w * q + r) =
      (if 1 ≤ q then [w * q + r - w] else []) ++
      (if r ≠ 0 then [w * q + r - 1] else []) ++
      (if r + 1 < w then [w * q + r + 1] else []) ++
      (if q + 1 < h then [w * q + r + w] else []) ++
      (if 1 ≤ q ∧ r ≠ 0 then [w * q + r - w - 1] else []) ++
      (if 1 ≤ q ∧ r + 1 < w then [w * q + r + 1 - w] else []) ++
      (if q + 1 < h ∧ r ≠ 0 then [w * q + r + w - 1] else []) ++
      (if q + 1 < h ∧ r + 1 < w then [w * q + r + w + 1] else []) := by
  have hmod : (w * q + r) % w = r := by
    rw [Nat.mul_add_mod]
    exact Nat.mod_eq_of_lt hr
  have hc1 : (w ≤ w * q + r) ↔ 1 ≤ q := by
    constructor
    · intro hc
      by_contra hq0
      have hq0' : q = 0 := by omega
      rw [hq0', Nat.mul_zero] at hc
      omega
    · intro h1
      have := Nat.mul_le_mul_left w h1
      omega
  have hc3 : ((w * q + r + 1) % w ≠ 0) ↔ r + 1 < w := by
    constructor
    · intro hc
      by_contra hge
      have hrw : r + 1 = w := by omega
      have e : w * q + r + 1 = w * (q + 1) := by rw [← hrw]; ring
      rw [e, Nat.mul_mod_right] at hc
      exact hc rfl
    · intro hlt
      have e : w * q + r + 1 = w * q + (r + 1) := by omega
      rw [e, Nat.mul_add_mod, Nat.mod_eq_of_lt hlt]
      omega
  have hc4 : (w * q + r + w < w * h) ↔ q + 1 < h := by
    constructor
    · intro hc
      by_contra hge
      have := Nat.mul_le_mul_left w (show h ≤ q + 1 by omega)
      have e : w * (q + 1) = w * q + w := by ring
      omega
    · intro hlt
      have := Nat.mul_le_mul_left w (show q + 2 ≤ h by omega)
      have e : w * (q + 2) = w * q + w + w := by ring
      omega
  have hc5 : (w + 1 ≤ w * q + r ∧ r ≠ 0) ↔ (1 ≤ q ∧ r ≠ 0) := by
    constructor
    · rintro ⟨hc, hrne⟩
      refine ⟨?_, hrne⟩
      by_contra hq0
      have hq0' : q = 0 := by omega
      rw [hq0', Nat.mul_zero] at hc
      omega
    · rintro ⟨h1, hrne⟩
      have := Nat.mul_le_mul_left w h1
      exact ⟨by omega, hrne⟩
  have hc6 : (w ≤ w * q + r + 1 ∧ r + 1 < w) ↔ (1 ≤ q ∧ r + 1 < w) := by
    constructor
    · rintro ⟨hc, hlt⟩
      refine ⟨?_, hlt⟩
      by_contra hq0
      have hq0' : q = 0 := by omega
      rw [hq0', Nat.mul_zero] at hc
      omega
    · rintro ⟨h1, hlt⟩
      have := Nat.mul_le_mul_left w h1
      exact ⟨by omega, hlt⟩
  have hc7 : (w * q + r + w - 1 < w * h ∧ r ≠ 0) ↔
      (q + 1 < h ∧ r ≠ 0) := by
    constructor
    · rintro ⟨hc, hrne⟩
      refine ⟨?_, hrne⟩
      by_contra hge
      have := Nat.mul_le_mul_left w (show h ≤ q + 1 by omega)
      have e : w * (q + 1) = w * q + w := by ring
      omega
    · rintro ⟨hlt, hrne⟩
      have := Nat.mul_le_mul_left w (show q + 2 ≤ h by omega)
      have e : w * (q + 2) = w * q + w + w := by ring
      exact ⟨by omega, hrne⟩
  have hc8 : (w * q + r + w + 1 < w * h ∧ r + 1 < w) ↔
      (q + 1 < h ∧ r + 1 < w) := by
    constructor
    · rintro ⟨hc, hrne⟩
      refine ⟨?_, hrne⟩
      by_contra hge
      have := Nat.mul_le_mul_left w (show h ≤ q + 1 by omega)
      have e : w * (q + 1) = w * q + w := by ring
      omega
    · rintro ⟨hlt, hrne⟩
      have := Nat.mul_le_mul_left w (show q + 2 ≤ h by omega)
      have e : w * (q + 2) = w * q + w + w := by ring
      exact ⟨by omega, hrne⟩
  unfold Board.get_neighbors
  simp only [hmod, hc1, hc3, hc4, hc5, hc6, hc7, hc8]

set_option maxHeartbeats 1600000 in
/-- The neighbour list never repeats an index. -/
theorem get_neighbors_nodup (L : List Char) (w h q r : Nat)
    (hw : 1 ≤ w) (hr : r < w) :
    ((Board.mk L w h).get_neighbors (w * q + r)).Nodup := by
  rw [get_neighbors_translated L w h q r hw hr]
  rcases q with _ | q'
  · have e0 : w * 0 = 0 := by ring
    split_ifs <;>
      (simp only [List.cons_append, List.append_assoc, List.singleton_append,
        List.nil_append, List.append_nil, List.nodup_cons, List.mem_cons,
        List.mem_singleton, List.mem_append, List.not_mem_nil, List.nodup_nil,
        or_false, false_or, and_true, true_and, not_or, not_false_iff] <;>
        omega)
  · have eb : w * (q' + 1) = w * q' + w := by ring
    split_ifs <;>
      (simp only [List.cons_append, List.append_assoc, List.singleton_append,
        List.nil_append, List.append_nil, List.nodup_cons, List.mem_cons,
        List.mem_singleton, List.mem_append, List.not_mem_nil, List.nodup_nil,
        or_false, false_or, and_true, true_and, not_or, not_false_iff] <;>
        omega)

/-- The neighbour list has at most 8 entries, and at least 3 on a board
with both dimensions at least 2. -/
theorem get_neighbors_length (L : List Char) (w h q r : Nat)
    (hw : 1 ≤ w) (hq : q < h) (hr : r < w) :
    ((Board.mk L w h).get_neighbors (w * q + r)).length ≤ 8 ∧
    (2 ≤ w → 2 ≤ h →
      3 ≤ ((Board.mk L w h).get_neighbors (w * q + r)).length) := by
  rw [get_neighbors_translated L w h q r hw hr]
  constructor
  · split_ifs <;>
      (simp only [List.length_append, List.length_singleton,
        List.length_nil] <;> omega)
  · intro hw2 hh2
    split_ifs <;>
      (simp only [List.length_append, List.length_singleton,
        List.length_nil] <;> omega)

/-! ## Candidate-finder lemmas -/

theorem find_next_nil_words (b : Board) (fuel : Nat) (spots : List Nat)
    (current : Nat) : b.find_next fuel [] spots current = [] := by
  cases fuel <;> simp [Board.find_next]

/-- The search invariant of `find_next`: every emitted candidate extends
the entry path by a nonempty suffix, spells exactly the letters along its
path, repeats no cell, and steps only between adjacent cells. -/
theorem find_next_sound (b : Board) :
    ∀ (fuel : Nat) (words : List (List Char)) (spots : List Nat)
      (current : Nat) (c : List Char × List Nat),
      c ∈ b.find_next fuel words spots current →
      spots.Nodup →
      List.Chain' (fun x y => y ∈ b.get_neighbors x) spots →
      spots.getLast? = some current →
      (∃ ext, ext ≠ [] ∧ c.2 = spots ++ ext) ∧
      c.1 = word_on b c.2 ∧ c.2.Nodup ∧
      List.Chain' (fun x y => y ∈ b.get_neighbors x) c.2 := by
  intro fuel
  induction fuel with
  | zero =>
    intro words spots current c hc
    exact absurd hc (by simp [Board.find_next])
  | succ fuel ih =>
    intro words spots current c hc hnd hch hlast
    rw [Board.find_next] at hc
    split at hc
    · exact absurd hc (by simp)
    · rw [List.mem_flatten] at hc
      obtain ⟨l, hl, hcl⟩ := hc
      rw [List.mem_map] at hl
      obtain ⟨nbr, hnbr, hfl⟩ := hl
      rw [← hfl] at hcl
      clear hfl
      split at hcl
      · exact absurd hcl (by simp)
      · rename_i hcont
        have hnm : nbr ∉ spots := by
          intro hmem
          simp [hmem] at hcont
        have hch1 : List.Chain' (fun x y => y ∈ b.get_neighbors x)
            (spots ++ [nbr]) := by
          rw [List.chain'_append]
          refine ⟨hch, List.chain'_singleton nbr, ?_⟩
          intro x hx y hy
          rw [hlast] at hx
          simp only [List.head?_cons, Option.mem_some_iff] at hx hy
          rw [← hx, ← hy]
          exact hnbr
        have hnd1 : (spots ++ [nbr]).Nodup := by
          rw [List.nodup_append]
          exact ⟨hnd, List.nodup_singleton nbr, by simpa using hnm⟩
        rw [List.mem_append] at hcl
        rcases hcl with hmatch | hrec
        · split at hmatch
          · rw [List.mem_singleton] at hmatch
            subst hmatch
            refine ⟨⟨[nbr], by simp, rfl⟩, ?_, hnd1, hch1⟩
            simp [Board.make_word_from_inds, word_on]
          · exact absurd hmatch (by simp)
        · split at hrec
          · exact absurd hrec (by simp)
          · obtain ⟨⟨ext, hene, hext⟩, h1, h2, h3⟩ :=
              ih _ (spots ++ [nbr]) nbr c hrec hnd1 hch1
                (List.getLast?_concat spots)
            refine ⟨⟨nbr :: ext, by simp, ?_⟩, h1, h2, h3⟩
            rw [hext]
            simp

/-! ## Claim theorems -/

/-- C1 (amended): for every candidate mask list whose masks lie within the
board, and every `max_words` bound and board dimensions (width positive,
area within the 64-bit word of `usize`), if the coverage solver returns a
selection then the union of the selected masks equals the full-board mask
with all `w * h` bits set, the selected masks are pairwise disjoint, every
selected mask passed the overlap and diagonal-crossing gates against the
running board mask at the moment it was placed, and the number of selected
masks is at most `max_words`.  (The original claim's pairwise test on the
candidates' original paths is replaced by the gate the code actually runs,
which compares ascending mask index sequences against the merged running
mask; see the counterexample.) -/
theorem claim_C1 :
    ∀ (blocks : List Nat) (m w h : Nat) (res sel' : List Nat),
      1 ≤ w → w * h ≤ 64 →
      (∀ bk ∈ blocks, bk < 2 ^ (w * h)) →
      innerSolve 0 blocks [] m w h = some (some res, sel') →
      unionFrom 0 res = 2 ^ (w * h) - 1 ∧
      res.Pairwise (fun a b => a &&& b = 0) ∧
      placedOK w h 0 res ∧
      res.length ≤ m := by
  intro blocks m w h res sel' _ h64 hbnd hrun
  obtain ⟨ext, hne, hre, hse, hsub, hok, hcnt, hle⟩ :=
    innerSolve_some_sound 0 blocks [] m w h res sel' hrun
  have hext : res = ext := by simpa using hre
  subst hext
  refine ⟨?_, placedOK_pairwise res 0 w h hok, hok, hle⟩
  have hlt : unionFrom 0 res < 2 ^ (w * h) := by
    apply unionFrom_lt
    · exact Nat.pos_pow_of_pos (w * h) (by omega)
    · intro x hx
      exact hbnd x (hsub.subset hx)
  exact count_ones_full (unionFrom 0 res) (w * h) h64 hlt
    (by rw [hcnt]; exact Nat.mul_comm h w)

/-- C1 counterexample: the original claim fails on the code in two ways.
With in-range candidates whose masks are `indices_to_bits [3,1,5] = 42`,
`indices_to_bits [0,4,2] = 21` and `indices_to_bits [6,7,8] = 448` on the
3×3 board, the solver returns all three although the first two candidates'
actual paths cross (`crosses_existing_lines [3,1,5] [0,4,2] 3 = some true`);
the mask-level gate the code runs compares ascending index sequences of the
merged mask and does not see that crossing.  And with the out-of-range mask
`2` on a 1×1 board the solver returns a selection whose union `2` is not
the full-board mask `2 ^ 1 - 1 = 1` even though its popcount matches. -/
theorem claim_C1_counterexample :
    indices_to_bits [3, 1, 5] = 42 ∧ indices_to_bits [0, 4, 2] = 21 ∧
    indices_to_bits [6, 7, 8] = 448 ∧
    innerSolve 0 [42, 21, 448] [] 3 3 3 =
      some (some [42, 21, 448], [42, 21, 448]) ∧
    crosses_existing_lines [3, 1, 5] [0, 4, 2] 3 = some true ∧
    innerSolve 0 [2] [] 1 1 1 = some (some [2], [2]) ∧
    unionFrom 0 [2] ≠ 2 ^ (1 * 1) - 1 := by decide

/-- C1 witness: the amended theorem applied to the concrete run that covers
the 3×2 board with the two row masks `7` and `56`. -/
theorem claim_C1_witness :
    unionFrom 0 [7, 56] = 2 ^ (3 * 2) - 1 ∧
    ([7, 56] : List Nat).Pairwise (fun a b => a &&& b = 0) ∧
    placedOK 3 2 0 [7, 56] ∧ ([7, 56] : List Nat).length ≤ 2 :=
  claim_C1 [7, 56] 2 3 2 [7, 56] [7, 56] (by decide) (by decide)
    (by decide) (by decide)

/-- C2 (amended): at each step of the coverage solver's per-candidate loop
a candidate is rejected exactly when its mask overlaps the current running
board mask, or the ascending index sequence of its mask strictly crosses
the ascending index sequence of the merged running board mask.  The solver
accumulates only the running coverage mask — no per-candidate paths are
kept — so the crossing gate is applied against the merged mask, not against
the previously placed candidates' individual paths. -/
theorem claim_C2 :
    (∀ (block board w h : Nat),
      1 ≤ w →
      ((bit_overlaps block board = true ∨
          no_diagonal_overlap block board w h = some false) ↔
        (block &&& board ≠ 0 ∨
          (bits_to_indices board w h ≠ [] ∧
            SegmentsCross (bits_to_indices board w h)
              (bits_to_indices block w h) w)))) ∧
    (∀ (block board : Nat) (rest sel : List Nat) (m w h : Nat),
      (bit_overlaps block board = true ∨
        no_diagonal_overlap block board w h = some false) →
      innerLoop board (block :: rest) sel m w h =
        innerLoop board rest sel m w h) := by
  constructor
  · intro block board w h _
    have h1 : bit_overlaps block board = true ↔ block &&& board ≠ 0 := by
      simp [bit_overlaps]
    rw [h1, ndo_eq_some_false_iff]
  · intro block board rest sel m w h hrej
    rw [innerLoop_cons]
    rcases hrej with hov | hndo
    · rw [if_pos hov]
    · by_cases hov : bit_overlaps block board = true
      · rw [if_pos hov]
      · rw [if_neg hov, hndo]

/-- C2 counterexample: on the 3×3 board, with mask 42 (of the previously
selected path `[3,1,5]`) as the running board mask, the candidate with path
`[0,4,2]` and mask 21 is **not** rejected (its mask does not overlap and the
mask-level crossing gate passes, so the solver places it and completes a
solution), although its path does cross the previously selected candidate's
path.  Hence rejection is not equivalent to "overlaps or crosses a
previously selected candidate's path". -/
theorem claim_C2_counterexample :
    indices_to_bits [3, 1, 5] = 42 ∧ indices_to_bits [0, 4, 2] = 21 ∧
    bit_overlaps 21 42 = false ∧
    no_diagonal_overlap 21 42 3 3 = some true ∧
    crosses_existing_lines [3, 1, 5] [0, 4, 2] 3 = some true ∧
    innerLoop 42 [21, 448] [42] 3 3 3 =
      some (some [42, 21, 448], [42, 21, 448]) := by decide

/-- C2 witness: the rejection branch of the amended theorem applied to a
concrete overlapping candidate. -/
theorem claim_C2_witness :
    innerLoop 1 [1, 12] [] 5 2 2 = innerLoop 1 [12] [] 5 2 2 :=
  claim_C2.2 1 1 [12] [] 5 2 2 (Or.inl (by decide))

/-- C3 (amended): for every candidate list whose masks are nonzero and
within the board, if no subset of the candidate masks (taken in list order
and passing the solver's own overlap and diagonal gates) reaches full board
coverage with at most `max_words` masks, then `inner_solve` reports the
absence of a solution by returning `None` (with the accumulator restored)
to its caller `solve` — and `solve` then panics through
`.expect("Could not find a solution")` (modelled by its `none` result)
instead of returning a `NoSolution` value. -/
theorem claim_C3 :
    ∀ (wtf : List (List (List Char × List Nat))) (m w h : Nat),
      1 ≤ w →
      (∀ bk ∈ condensed_words wtf, 0 < bk ∧ bk < 2 ^ (w * h)) →
      (¬ ∃ l : List Nat, l.Sublist (condensed_words wtf) ∧
          placedOK w h 0 l ∧ count_ones (unionFrom 0 l) = h * w ∧
          l.length ≤ m) →
      innerSolve 0 (condensed_words wtf) [] m w h = some (none, []) ∧
      solve wtf m w h = none := by
  intro wtf m w h _ hbnd hnone
  have hne : ∀ bk ∈ condensed_words wtf, bits_to_indices bk w h ≠ [] := by
    intro bk hbk
    exact bits_to_indices_ne_nil bk w h (hbnd bk hbk).1 (hbnd bk hbk).2
  have hmain : innerSolve 0 (condensed_words wtf) [] m w h =
      some (none, []) := by
    cases hres : innerSolve 0 (condensed_words wtf) [] m w h with
    | none =>
      exact absurd hres
        (innerSolve_ne_none 0 (condensed_words wtf) [] m w h hne)
    | some pr =>
      obtain ⟨r, sel'⟩ := pr
      cases r with
      | none =>
        have := innerSolve_none_eq 0 (condensed_words wtf) [] m w h sel' hres
        rw [this]
      | some res =>
        obtain ⟨ext, hne2, hre, hse, hsub, hok, hcnt, hle⟩ :=
          innerSolve_some_sound 0 (condensed_words wtf) [] m w h res sel' hres
        have hext : res = ext := by simpa using hre
        subst hext
        exact absurd ⟨res, hsub, hok, hcnt, hle⟩ hnone
  refine ⟨hmain, ?_⟩
  unfold solve
  simp only []
  rw [hmain]

/-- C3 counterexample: on the 2×1 board with the single candidate
`(['a'], [0])` (mask 1) there is no covering subset, and `solve` panics
(its `.expect` on the `None` search result, modelled by `none`) instead of
reporting a `NoSolution` condition as an explicit result; `inner_solve`
itself does return `None` to `solve`. -/
theorem claim_C3_counterexample :
    condensed_words [[([Char.ofNat 97], [0])]] = [1] ∧
    innerSolve 0 [1] [] 1 2 1 = some (none, []) ∧
    solve [[([Char.ofNat 97], [0])]] 1 2 1 = none := by decide

/-- C3 witness: the amended theorem applied to a concrete no-solution
instance, a single two-cell candidate on the 2×2 board. -/
theorem claim_C3_witness :
    innerSolve 0 (condensed_words [[([Char.ofNat 97, Char.ofNat 98],
      [0, 1])]]) [] 1 2 2 = some (none, []) ∧
    solve [[([Char.ofNat 97, Char.ofNat 98], [0, 1])]] 1 2 2 = none := by
  apply claim_C3 [[([Char.ofNat 97, Char.ofNat 98], [0, 1])]] 1 2 2
    (by decide) (by decide)
  rintro ⟨l, hsub, hok, hcnt, hlen⟩
  have hl : l = [] ∨ l = [3] := by
    have hcw : condensed_words [[([Char.ofNat 97, Char.ofNat 98],
        [0, 1])]] = [3] := by decide
    rw [hcw] at hsub
    rcases List.sublist_cons_iff.mp hsub with hnil | ⟨r, hr, hrs⟩
    · exact Or.inl (List.sublist_nil.mp hnil)
    · right
      rw [hr, List.sublist_nil.mp hrs]
  rcases hl with hl | hl <;> rw [hl] at hcnt <;> revert hcnt <;> decide

/-- C6 (confirmed): the crossing test returns true exactly when some
consecutive segment of the new path and some consecutive segment of the
existing path strictly straddle each other — all four cross-product
orientation values nonzero with each segment's endpoints on strictly
opposite sides — so collinear or endpoint-touching configurations are never
counted; and on width 3, paths `[0,7]` and `[1,6]` cross while `[0,1,2,3]`
and `[4,5]` do not. -/
theorem claim_C6 :
    (∀ (existing nw : List Nat) (w : Nat), 1 ≤ w →
      (crosses_existing_lines existing nw w = some true ↔
        SegmentsCross existing nw w)) ∧
    crosses_existing_lines [0, 7] [1, 6] 3 = some true ∧
    crosses_existing_lines [0, 1, 2, 3] [4, 5] 3 = some false :=
  ⟨fun ex nw w _ => crosses_eq_some_true_iff ex nw w, by decide, by decide⟩

/-- C6 witness: the characterisation applied to the crossing example. -/
theorem claim_C6_witness : SegmentsCross [0, 7] [1, 6] 3 :=
  (claim_C6.1 [0, 7] [1, 6] 3 (by decide)).mp (by decide)

/-- C7 (amended): the crossing test is symmetric in its two path arguments
for every positive width and all **nonempty** paths (every candidate path
has length at least two).  With one empty argument the two orders behave
differently: the Rust loop bound `len() - 1` underflows and panics in one
order but returns false in the other; see the counterexample. -/
theorem claim_C7 :
    ∀ (A B : List Nat) (w : Nat), 1 ≤ w → A ≠ [] → B ≠ [] →
      crosses_existing_lines A B w = crosses_existing_lines B A w := by
  intro A B w _ hA hB
  have hA' : A.length ≠ 0 := by simpa [List.length_eq_zero] using hA
  have hB' : B.length ≠ 0 := by simpa [List.length_eq_zero] using hB
  unfold crosses_existing_lines
  rw [if_neg (by omega), if_neg (by omega)]
  rw [Option.some_inj, Bool.eq_iff_iff]
  simp only [List.any_eq_true, List.mem_range]
  constructor
  · rintro ⟨i, hi, j, hj, hint⟩
    refine ⟨j, hj, i, hi, ?_⟩
    rw [← lines_intersect_symm]
    exact hint
  · rintro ⟨j, hj, i, hi, hint⟩
    refine ⟨i, hi, j, hj, ?_⟩
    rw [← lines_intersect_symm]
    exact hint

/-- C7 counterexample: with an empty path on one side the two argument
orders disagree — `crosses([], [0])` returns false (the outer loop never
runs) while `crosses([0], [])` panics on the `len() - 1` underflow
(modelled by `none`), so the test is not symmetric for all path pairs. -/
theorem claim_C7_counterexample :
    crosses_existing_lines [] [0] 3 = some false ∧
    crosses_existing_lines [0] [] 3 = none ∧
    crosses_existing_lines [] [0] 3 ≠ crosses_existing_lines [0] [] 3 := by
  decide

/-- C7 witness: symmetry at the concrete crossing pair of the spec. -/
theorem claim_C7_witness :
    crosses_existing_lines [0, 7] [1, 6] 3 =
      crosses_existing_lines [1, 6] [0, 7] 3 :=
  claim_C7 [0, 7] [1, 6] 3 (by decide) (by decide) (by decide)

/-- C8 (amended): board construction never fails — `parse_flat_board`
performs no validation at all.  It always succeeds, storing exactly the
space-stripped input as the letter list together with the given dimensions;
in particular, when the space-stripped input has length `w * h` the
resulting board's letters field has length `w * h`.  No `InvalidDimensions`
error exists in the code. -/
theorem claim_C8 :
    ∀ (cs : List Char) (w h : Nat),
      parse_flat_board cs w h =
        Board.mk (cs.filter (fun ch => ch ≠ Char.ofNat 32)) w h ∧
      ((cs.filter (fun ch => ch ≠ Char.ofNat 32)).length = w * h →
        (parse_flat_board cs w h).letters.length = w * h) :=
  fun _ _ _ => ⟨rfl, fun hl => hl⟩

/-- C8 counterexample: construction with a 2-letter input and claimed 3×3
dimensions succeeds and returns a fully formed board — there is no
`InvalidDimensions` failure although `2 ≠ 3 * 3`. -/
theorem claim_C8_counterexample :
    parse_flat_board ['a', 'b'] 3 3 = Board.mk ['a', 'b'] 3 3 ∧
    (parse_flat_board ['a', 'b'] 3 3).letters.length = 2 ∧
    (2 : Nat) ≠ 3 * 3 := by decide

/-- C8 witness: the success half applied to a matching 2×1 input. -/
theorem claim_C8_witness :
    (parse_flat_board ['a', 'b'] 2 1).letters.length = 2 * 1 :=
  (claim_C8 ['a', 'b'] 2 1).2 (by decide)

/-- C10 (confirmed): backtracking restores the accumulator — every call to
`inner_solve` that returns `None` hands back the `selected_blocks`
accumulator holding exactly the sequence it held at entry (each tentative
push is undone by a matching pop before failure is reported). -/
theorem claim_C10 :
    ∀ (board : Nat) (blocks sel : List Nat) (m w h : Nat)
      (sel' : List Nat),
      innerSolve board blocks sel m w h = some (none, sel') → sel' = sel :=
  fun board blocks sel m w h sel' hrun =>
    innerSolve_none_eq board blocks sel m w h sel' hrun

/-- C10 witness: a concrete failing call (single block, bound 1, 2×2
board) returns `None` with the accumulator restored to the empty list it
started with. -/
theorem claim_C10_witness :
    innerSolve 0 [3] [] 1 2 2 = some (none, ([] : List Nat)) ∧
    (([] : List Nat) = []) :=
  ⟨by decide, claim_C10 0 [3] [] 1 2 2 [] (by decide)⟩

/-- C4 (amended): for every board with `w ≥ 1`, `h ≥ 1` and every index
`i < w * h`, `get_neighbors i` returns distinct indices, each inside
`[0, w*h)` and none equal to `i`, covering exactly the geometrically valid
orthogonal and diagonal neighbours with no row or column wraparound
(characterised by `NeighborSpec`), with at most 8 entries — and at least 3
entries once both dimensions are at least 2 (on degenerate 1×n or n×1
boards a cell can have as few as 0, 1 or 2 neighbours, so the original
lower bound of 3 for all `w, h ≥ 1` fails; see the counterexample).  The
fixed emission order north, west, east, south, northwest, northeast,
southwest, southeast is exhibited by the 3×3 examples: cell 4 yields
`[1, 3, 5, 7, 0, 2, 6, 8]` and cell 0 yields `[1, 3, 4]`. -/
theorem claim_C4 :
    (∀ (b : Board) (i : Nat), 1 ≤ b.w → 1 ≤ b.h → i < b.w * b.h →
      (∀ j, j ∈ b.get_neighbors i ↔ NeighborSpec b.w b.h i j) ∧
      (b.get_neighbors i).Nodup ∧
      (b.get_neighbors i).length ≤ 8 ∧
      (2 ≤ b.w → 2 ≤ b.h → 3 ≤ (b.get_neighbors i).length)) ∧
    (Board.mk ([] : List Char) 3 3).get_neighbors 4 =
      [1, 3, 5, 7, 0, 2, 6, 8] ∧
    (Board.mk ([] : List Char) 3 3).get_neighbors 0 = [1, 3, 4] := by
  refine ⟨?_, by decide, by decide⟩
  intro b i hw hh hi
  obtain ⟨letters, w, h⟩ := b
  have hw' : 1 ≤ w := hw
  have hh' : 1 ≤ h := hh
  have hi' : i < w * h := hi
  have hqr : w * (i / w) + i % w = i := Nat.div_add_mod i w
  have hq : i / w < h := by
    rw [Nat.div_lt_iff_lt_mul (by omega)]
    have := hi'
    rw [Nat.mul_comm] at this
    exact this
  have hr : i % w < w := Nat.mod_lt _ (by omega)
  refine ⟨?_, ?_, ?_, ?_⟩
  · intro j
    have hmem := mem_get_neighbors_iff letters w h (i / w) (i % w) j hw' hq hr
    rw [hqr] at hmem
    exact hmem
  · have hnd := get_neighbors_nodup letters w h (i / w) (i % w) hw' hr
    rw [hqr] at hnd
    exact hnd
  · have hlen := (get_neighbors_length letters w h (i / w) (i % w)
      hw' hq hr).1
    rw [hqr] at hlen
    exact hlen
  · intro hw2 hh2
    have hlen := (get_neighbors_length letters w h (i / w) (i % w)
      hw' hq hr).2 hw2 hh2
    rw [hqr] at hlen
    exact hlen

/-- C4 counterexample: on a 1×1 board (width and height both `≥ 1`, as the
original claim allows) cell 0 has an empty neighbour list, violating the
claimed lower bound of 3. -/
theorem claim_C4_counterexample :
    (Board.mk ([] : List Char) 1 1).get_neighbors 0 = [] ∧
    ¬ 3 ≤ ((Board.mk ([] : List Char) 1 1).get_neighbors 0).length := by
  decide

/-- C4 witness: the amended theorem applied to the centre cell of the 3×3
board. -/
theorem claim_C4_witness :
    ((Board.mk ([] : List Char) 3 3).get_neighbors 4).Nodup ∧
    3 ≤ ((Board.mk ([] : List Char) 3 3).get_neighbors 4).length :=
  ⟨(claim_C4.1 (Board.mk ([] : List Char) 3 3) 4 (by decide) (by decide)
      (by decide)).2.1,
    (claim_C4.1 (Board.mk ([] : List Char) 3 3) 4 (by decide) (by decide)
      (by decide)).2.2.2 (by decide) (by decide)⟩

/-- C5 (confirmed): every candidate `(word, path)` emitted by the
candidate finder satisfies: the word equals the concatenation, in order, of
the board letters at the path's indices; the path contains no repeated
index; and every two consecutive path elements are adjacent cells per the
grid-adjacency relation (the `get_neighbors` step relation). -/
theorem claim_C5 :
    ∀ (b : Board) (fuel start : Nat) (words : List (List Char))
      (c : List Char × List Nat),
      c ∈ b.find_valid_words_from_start fuel start words →
      c.1 = word_on b c.2 ∧ c.2.Nodup ∧
      List.Chain' (fun x y => y ∈ b.get_neighbors x) c.2 := by
  intro b fuel start words c hc
  unfold Board.find_valid_words_from_start at hc
  obtain ⟨-, h1, h2, h3⟩ :=
    find_next_sound b fuel _ [start] start c hc (by simp)
      (List.chain'_singleton start) (by simp)
  exact ⟨h1, h2, h3⟩

/-- C5 witness: the candidate `("ab", [0, 1])` found on the 2×1 board
`ab` satisfies all three properties. -/
theorem claim_C5_witness :
    (['a', 'b'], ([0, 1] : List Nat)) ∈
      (Board.mk ['a', 'b'] 2 1).find_valid_words_from_start 2 0
        [['a', 'b']] ∧
    (['a', 'b'] : List Char) = word_on (Board.mk ['a', 'b'] 2 1) [0, 1] ∧
    ([0, 1] : List Nat).Nodup ∧
    List.Chain' (fun x y => y ∈ (Board.mk ['a', 'b'] 2 1).get_neighbors x)
      [0, 1] :=
  ⟨by decide,
    claim_C5 (Board.mk ['a', 'b'] 2 1) 2 0 [['a', 'b']]
      (['a', 'b'], [0, 1]) (by decide)⟩

/-- C9 (confirmed): the candidate finder never emits a candidate whose word
or path has length 1 — every emitted candidate has word and path of length
at least 2, since matches are only checked after extending from the start
letter — and a starting cell contributes no candidates when the word list
is empty or no word in it starts with the cell's letter. -/
theorem claim_C9 :
    (∀ (b : Board) (fuel start : Nat) (words : List (List Char))
        (c : List Char × List Nat),
        c ∈ b.find_valid_words_from_start fuel start words →
        2 ≤ c.1.length ∧ 2 ≤ c.2.length) ∧
    (∀ (b : Board) (fuel start : Nat),
        b.find_valid_words_from_start fuel start [] = []) ∧
    (∀ (b : Board) (fuel start : Nat) (words : List (List Char)),
        (∀ wd ∈ words,
          (wd.head? == some (b.letters.getD start 'a')) = false) →
        b.find_valid_words_from_start fuel start words = []) := by
  refine ⟨?_, ?_, ?_⟩
  · intro b fuel start words c hc
    unfold Board.find_valid_words_from_start at hc
    obtain ⟨⟨ext, hene, hext⟩, h1, -, -⟩ :=
      find_next_sound b fuel _ [start] start c hc (by simp)
        (List.chain'_singleton start) (by simp)
    have hlen2 : 2 ≤ c.2.length := by
      rw [hext]
      have : 0 < ext.length := List.length_pos.mpr hene
      simp only [List.length_append, List.length_singleton]
      omega
    refine ⟨?_, hlen2⟩
    rw [h1]
    simpa [word_on] using hlen2
  · intro b fuel start
    unfold Board.find_valid_words_from_start
    simp only [List.filter_nil]
    exact find_next_nil_words b fuel [start] start
  · intro b fuel start words hno
    unfold Board.find_valid_words_from_start
    simp only []
    rw [List.filter_eq_nil_iff.mpr (by
      intro wd hwd
      simpa using hno wd hwd)]
    exact find_next_nil_words b fuel [start] start

/-- C9 witness: the emitted candidate on the 2×1 board has word and path of
length 2, and a word list whose single entry does not start with the cell's
letter contributes no candidates. -/
theorem claim_C9_witness :
    (2 ≤ (['a', 'b'] : List Char).length ∧
      2 ≤ ([0, 1] : List Nat).length) ∧
    (Board.mk ['a', 'b'] 2 1).find_valid_words_from_start 2 0
      [['x', 'y']] = [] :=
  ⟨claim_C9.1 (Board.mk ['a', 'b'] 2 1) 2 0 [['a', 'b']]
      (['a', 'b'], [0, 1]) (by decide),
    claim_C9.2.2 (Board.mk ['a', 'b'] 2 1) 2 0 [['x', 'y']] (by decide)⟩

end Strands
